import Mathlib

/-!
Verification of the replica-exchange analysis script
`openmm/python/analyze-parallel-tempering-schemes.py`.

The script's numerical estimators are embedded shallowly:

* numpy `float64` arrays are modelled as total functions `ℕ → ℕ → ℚ`
  (exact rational arithmetic in place of floating point);
* a numpy row that is produced by a division whose denominator is zero
  (`0.0 / 0.0 = NaN`) is modelled as `none` in an `Option`-valued row;
* `numpy.mean` / `numpy.std` of an empty array (which yield NaN) are
  modelled as `none`;
* the eigenvalue computation `numpy.linalg.eigvals` followed by the
  descending sort is an external collaborator; the code after the sort
  depends only on the second entry `mu[1]`, so the estimators are
  parameterised by an oracle `eig` returning that entry.
-/

namespace Gibbs

/-- Mat models a numpy two-dimensional float64 array as a total function;
only indices inside the array's shape are ever read by the embedded code. -/
abbrev Mat := ℕ → ℕ → ℚ

/-- incr models a single in-place `N[i,j] += x` update of a numpy array. -/
def incr (N : Mat) (i j : ℕ) (x : ℚ) : Mat :=
  fun a b => if a = i ∧ b = j then N a b + x else N a b

/-- addTrans models the loop body `Nij[istate,jstate] += 0.5`;
`Nij[jstate,istate] += 0.5` shared by all three transition-count
accumulations in the script. -/
def addTrans (N : Mat) (i j : ℕ) : Mat :=
  incr (incr N i j (1/2)) j i (1/2)

/-- mixingNij embeds lines 125-131 of the script (`show_mixing_statistics`):
the symmetrized transition-count matrix accumulated over all pairs of
adjacent iterations and all replica columns, starting from `numpy.zeros`.
The same loop appears verbatim at lines 211-217 of
`show_mixing_statistics_with_error`. -/
def mixingNij (s : ℕ → ℕ → ℕ) (niterations nstates : ℕ) : Mat :=
  (List.range (niterations - 1)).foldl
    (fun N iteration =>
      (List.range nstates).foldl
        (fun N ireplica => addTrans N (s iteration ireplica) (s (iteration + 1) ireplica))
        N)
    (fun _ _ => 0)

/-- Ni models `Nij[i,:].sum()`: the sum of row `i` over the matrix's
`n` physical columns. -/
def Ni (N : Mat) (n : ℕ) (i : ℕ) : ℚ :=
  ∑ j in Finset.range n, N i j

/-- mixingTij embeds lines 132-134: `Tij[istate,:] = Nij[istate,:] / Nij[istate,:].sum()`.
The division is unconditional in the source; when the row sum is zero every
entry of the row is `0.0/0.0 = NaN` (the accumulated counts are nonnegative,
so a zero row sum forces a zero row), which is modelled as `none`. -/
def mixingTij (s : ℕ → ℕ → ℕ) (niterations nstates : ℕ) : ℕ → Option (ℕ → ℚ) :=
  fun i =>
    let N := mixingNij s niterations nstates
    if Ni N nstates i = 0 then none else some (fun j => N i j / Ni N nstates i)

/-- foldl_pres is the invariant-preservation principle for `List.foldl`
used throughout: an invariant that every step of the loop preserves holds
of the final accumulator. -/
theorem foldl_pres {α β : Type} (P : β → Prop) (f : β → α → β) :
    ∀ (l : List α) (b : β), P b → (∀ a, a ∈ l → ∀ x, P x → P (f x a)) →
      P (l.foldl f b) := by
  intro l
  induction l with
  | nil => intro b hb _; exact hb
  | cons a t ih =>
      intro b hb h
      exact ih (f b a) (h a (List.mem_cons_self a t) b hb)
        (fun a' ha' => h a' (List.mem_cons_of_mem _ ha'))

/-- foldl_ext is the congruence principle for `List.foldl`: two loop bodies
that agree on every element of the list produce the same final accumulator. -/
theorem foldl_ext {α β : Type} (f g : β → α → β) :
    ∀ (l : List α) (b : β), (∀ a, a ∈ l → ∀ x, f x a = g x a) →
      l.foldl f b = l.foldl g b := by
  intro l
  induction l with
  | nil => intro b _; rfl
  | cons a t ih =>
      intro b h
      simp only [List.foldl_cons]
      rw [h a (List.mem_cons_self a t) b]
      exact ih (g b a) (fun a' ha' => h a' (List.mem_cons_of_mem _ ha'))

/-- addTrans_apply gives the pointwise value of one accumulation step. -/
theorem addTrans_apply (N : Mat) (i j a b : ℕ) :
    addTrans N i j a b =
      N a b + (if a = i ∧ b = j then (1 : ℚ)/2 else 0)
            + (if a = j ∧ b = i then (1 : ℚ)/2 else 0) := by
  unfold addTrans incr
  split_ifs <;> ring

/-- Symm states that a matrix is symmetric. -/
def Symm (N : Mat) : Prop := ∀ a b, N a b = N b a

/-- addTrans_symm: one accumulation step preserves symmetry of the
count matrix. -/
theorem addTrans_symm (N : Mat) (hN : Symm N) (i j : ℕ) : Symm (addTrans N i j) := by
  intro a b
  rw [addTrans_apply, addTrans_apply, hN a b]
  have h1 : (a = i ∧ b = j) = (b = j ∧ a = i) := propext and_comm
  have h2 : (a = j ∧ b = i) = (b = i ∧ a = j) := propext and_comm
  simp only [h1, h2]
  ring

/-- addTrans_row_untouched: an accumulation step whose two endpoints both
differ from `i` leaves row `i` unchanged. -/
theorem addTrans_row_untouched (N : Mat) (p q i : ℕ) (hp : p ≠ i) (hq : q ≠ i) :
    ∀ j, addTrans N p q i j = N i j := by
  intro j
  rw [addTrans_apply]
  rw [if_neg (fun h => hp h.1.symm), if_neg (fun h => hq h.1.symm)]
  ring

/-- mixingNij_symm: the replica-mixing transition-count matrix is symmetric
for every input trajectory. -/
theorem mixingNij_symm (s : ℕ → ℕ → ℕ) (niterations nstates : ℕ) :
    Symm (mixingNij s niterations nstates) := by
  unfold mixingNij
  apply foldl_pres Symm
  · intro a b; rfl
  · intro it _ N hN
    apply foldl_pres Symm
    · exact hN
    · intro r _ N' hN'
      exact addTrans_symm N' hN' _ _

/-- blockNij embeds lines 189-195 of `show_mixing_statistics_with_error`:
the transition-count accumulation restricted to block `block_index`, that
is to iterations in `range(blocksize*block_index, blocksize*(block_index+1)-1)`
(Python `range` of length `blocksize*(block_index+1)-1 - blocksize*block_index`). -/
def blockNij (s : ℕ → ℕ → ℕ) (blocksize block_index nstates : ℕ) : Mat :=
  (List.range' (blocksize * block_index)
      (blocksize * (block_index + 1) - 1 - blocksize * block_index)).foldl
    (fun N iteration =>
      (List.range nstates).foldl
        (fun N ireplica => addTrans N (s iteration ireplica) (s (iteration + 1) ireplica))
        N)
    (fun _ _ => 0)

/-- blockTij embeds lines 196-198: the per-block transition matrix, with the
same unconditional row normalization as `mixingTij` (a zero-count row is a
NaN row, modelled as `none`). -/
def blockTij (s : ℕ → ℕ → ℕ) (blocksize block_index nstates : ℕ) : ℕ → Option (ℕ → ℚ) :=
  fun i =>
    let N := blockNij s blocksize block_index nstates
    if Ni N nstates i = 0 then none else some (fun j => N i j / Ni N nstates i)

/-- relaxNij embeds lines 264-270 of `compute_relaxation_time`: the binned
coordinate trajectory `bin_it` has shape `(nstates, niterations)` (replica
major), and transition counts over adjacent iterations of every replica row
are pooled into one `nbins × nbins` matrix. -/
def relaxNij (bin : ℕ → ℕ → ℕ) (nstates niterations : ℕ) : Mat :=
  (List.range nstates).foldl
    (fun N ireplica =>
      (List.range (niterations - 1)).foldl
        (fun N iteration => addTrans N (bin ireplica iteration) (bin ireplica (iteration + 1)))
        N)
    (fun _ _ => 0)

/-- relaxTij embeds lines 271-278 of `compute_relaxation_time`: the row is
first set to the identity row (`Tij[ibin,ibin] = 1.0`) and overwritten with
the normalized count row only when its total count `Ni[ibin]` is positive,
so no division by zero can occur. -/
def relaxTij (bin : ℕ → ℕ → ℕ) (nbins nstates niterations : ℕ) : Mat :=
  fun i j =>
    let N := relaxNij bin nstates niterations
    if 0 < Ni N nbins i then N i j / Ni N nbins i
    else if i = j then 1 else 0

/-- npMean models `numpy.mean` of a one-dimensional array: the NaN produced
on an empty array is `none`. -/
def npMean (xs : List ℚ) : Option ℚ :=
  if xs.isEmpty then none else some (xs.sum / xs.length)

/-- npVar models the square of `numpy.std` of a one-dimensional array (the
mean of the squared deviations from the mean, `ddof = 0`); the NaN produced
on an empty array is `none`.  `numpy.std` itself is `Real.sqrt` of this. -/
def npVar (xs : List ℚ) : Option ℚ :=
  if xs.isEmpty then none
  else some (((xs.map (fun x => (x - xs.sum / xs.length) ^ 2)).sum) / xs.length)

/-- show_mixing_statistics embeds lines 154-162 of the script: after the
eigenvalues of the full-data transition matrix are sorted in descending
order (the external oracle `eig` returns the second entry `mu[1]`), the
function reports the chain as decomposable when `mu[1] >= 1` (`none`) and
otherwise reports the timescale `1/(1-mu[1])` (`some`). -/
def show_mixing_statistics (eig : (ℕ → Option (ℕ → ℚ)) → ℚ)
    (s : ℕ → ℕ → ℕ) (niterations nstates : ℕ) : Option ℚ :=
  let mu1 := eig (mixingTij s niterations nstates)
  if 1 ≤ mu1 then none else some (1 / (1 - mu1))

/-- blockTaus embeds lines 187-206: the array `tau_i` of per-block timescale
estimates `1/(1-mu[1])`, one for each of the `nblocks` blocks, computed
unconditionally (no decomposability check inside the loop). -/
def blockTaus (eig : (ℕ → Option (ℕ → ℚ)) → ℚ)
    (s : ℕ → ℕ → ℕ) (blocksize nstates nblocks : ℕ) : List ℚ :=
  (List.range nblocks).map
    (fun block_index => 1 / (1 - eig (blockTij s blocksize block_index nstates)))

/-- show_mixing_statistics_with_error embeds lines 164-253: blocksize is
`int(niterations)/int(nblocks)` (integer division), `dtau` is
`tau_i.std()/numpy.sqrt(float(nblocks))`, and the returned pair is
`[tau, dtau]` where `tau = 1.0/(1.0-mu[1])` of the full-data transition
matrix, computed at line 246 before (and regardless of) the decomposability
check that only guards the printed message. -/
noncomputable def show_mixing_statistics_with_error (eig : (ℕ → Option (ℕ → ℚ)) → ℚ)
    (s : ℕ → ℕ → ℕ) (niterations nstates nblocks : ℕ) : ℚ × Option ℝ :=
  let blocksize := niterations / nblocks
  let tau_i := blockTaus eig s blocksize nstates nblocks
  let dtau : Option ℝ := (npVar tau_i).map (fun v => Real.sqrt (v : ℝ) / Real.sqrt (nblocks : ℝ))
  let mu1 := eig (mixingTij s niterations nstates)
  (1 / (1 - mu1), dtau)

/-- compute_relaxation_time embeds lines 255-286: the relaxation time
`tau = 1.0/(1.0-mu[1])` of the binned-coordinate transition matrix is
computed and returned unconditionally; there is no decomposability check. -/
def compute_relaxation_time (eig2 : Mat → ℚ)
    (bin : ℕ → ℕ → ℕ) (nbins nstates niterations : ℕ) : ℚ :=
  1 / (1 - eig2 (relaxTij bin nbins nstates niterations))

/-- e2eStep embeds the loop body of lines 301-307 of
`average_end_to_end_time` for one replica column `col`: the accumulator is
the pair of the pooled event list and the optional `last_endpoint`
iteration. -/
def e2eStep (col : ℕ → ℕ) (nstates : ℕ) : List ℕ × Option ℕ → ℕ → List ℕ × Option ℕ :=
  fun acc iteration =>
    if col iteration = 0 ∨ col iteration = nstates - 1 then
      match acc.2 with
      | none => (acc.1, some iteration)
      | some last_endpoint =>
          if col last_endpoint ≠ col iteration then
            (acc.1 ++ [iteration - last_endpoint], some iteration)
          else acc
    else acc

/-- average_end_to_end_time_events embeds lines 297-307: the event list is
accumulated over all replica columns in order, with `last_endpoint` reset
to `None` at the start of each column. -/
def average_end_to_end_time_events (s : ℕ → ℕ → ℕ) (niterations nstates : ℕ) : List ℕ :=
  (List.range nstates).foldl
    (fun events state =>
      ((List.range niterations).foldl (e2eStep (fun it => s it state) nstates)
        (events, none)).1)
    []

/-- average_end_to_end_time embeds lines 288-313: the pooled event list is
converted to a float array and the pair `[events.mean(), events.std()/sqrt(events.size)]`
is returned; on an empty event list both entries are NaN (`none`). -/
noncomputable def average_end_to_end_time (s : ℕ → ℕ → ℕ) (niterations nstates : ℕ) :
    Option ℚ × Option ℝ :=
  let events := (average_end_to_end_time_events s niterations nstates).map (fun e => (e : ℚ))
  (npMean events,
   (npVar events).map (fun v => Real.sqrt (v : ℝ) / Real.sqrt (events.length : ℝ)))

/-- ratTrunc models numpy `astype(numpy.int16)`: truncation toward zero
(the binned values in the script all lie well inside the int16 range). -/
def ratTrunc (q : ℚ) : ℤ :=
  if 0 ≤ q then ⌊q⌋ else -⌊-q⌋

/-- nbins embeds line 479: `nbins = 50`. -/
def nbins : ℕ := 50

/-- binDelta embeds line 480: `delta = 360.0 / (nbins - 0.01)`. -/
def binDelta : ℚ := 360 / ((nbins : ℚ) - 1/100)

/-- binOf embeds lines 481 and 483: a torsion angle `phiDeg` in degrees is
mapped to the bin index `int16((phiDeg + 180.0) / delta)`. -/
def binOf (phiDeg : ℚ) : ℤ :=
  ratTrunc ((phiDeg + 180) / binDelta)

/-- V3 is a three-dimensional real vector, modelling one row of the numpy
coordinate array (the implicit angstrom unit is stripped, as in lines
80-83 of the script). -/
structure V3 where
  x : ℝ
  y : ℝ
  z : ℝ

/-- vsub is componentwise subtraction of coordinate rows. -/
def vsub (a b : V3) : V3 := ⟨a.x - b.x, a.y - b.y, a.z - b.z⟩

/-- dot models `numpy.dot` on three-dimensional vectors. -/
noncomputable def dot (a b : V3) : ℝ := a.x * b.x + a.y * b.y + a.z * b.z

/-- cross models `numpy.cross` on three-dimensional vectors. -/
def cross (a b : V3) : V3 :=
  ⟨a.y * b.z - a.z * b.y, a.z * b.x - a.x * b.z, a.x * b.y - a.y * b.x⟩

/-- normalize models `n / numpy.sqrt(numpy.dot(n, n))` (lines 84-85). -/
noncomputable def normalize (a : V3) : V3 :=
  ⟨a.x / Real.sqrt (dot a a), a.y / Real.sqrt (dot a a), a.z / Real.sqrt (dot a a)⟩

/-- compute_torsion embeds lines 66-106 of the script: the Swope
normal-vector torsion algorithm, with the dot product clamped to `[-1, 1]`
via `1.0 * numpy.sign(cos_theta)` when its absolute value exceeds 1, and
the sign of the arccos angle resolved by the triple product
`numpy.dot(rjk, numpy.cross(n1, n2))`. -/
noncomputable def compute_torsion (ri rj rk rl : V3) : ℝ :=
  let rji := vsub ri rj
  let rjk := vsub rk rj
  let rkj := vsub rj rk
  let rkl := vsub rl rk
  let n1 := normalize (cross rji rjk)
  let n2 := normalize (cross rkl rkj)
  let cos_theta := dot n1 n2
  let clamped := if 1 < |cos_theta| then (if cos_theta < 0 then -1 else 1) else cos_theta
  let theta := Real.arccos clamped
  if dot rjk (cross n1 n2) < 0 then -theta else theta

/-- checkedAdd models one `Nij[istate,jstate] += 0.5; Nij[jstate,istate] += 0.5`
step of `show_mixing_statistics` together with numpy's bounds checking: an
index outside the `nstates × nstates` array raises `IndexError`, modelled
as `none`. -/
def checkedAdd (nstates : ℕ) (acc : Option Mat) (i j : ℕ) : Option Mat :=
  acc.bind (fun N => if i < nstates ∧ j < nstates then some (addTrans N i j) else none)

/-- mixingNijChecked is `mixingNij` with numpy's bounds checking made
explicit: the accumulation of lines 125-131 succeeds exactly when every
index written into the `nstates × nstates` count matrix is in range. -/
def mixingNijChecked (s : ℕ → ℕ → ℕ) (niterations nstates : ℕ) : Option Mat :=
  (List.range (niterations - 1)).foldl
    (fun acc iteration =>
      (List.range nstates).foldl
        (fun acc ireplica => checkedAdd nstates acc (s iteration ireplica) (s (iteration + 1) ireplica))
        acc)
    (some (fun _ _ => 0))

/-- specScan is the first-passage scan as worded in the specification: scan
the iterations of one replica in order; on the first boundary-state visit
record the endpoint iteration together with the boundary state occupied
there; when a later boundary visit occupies the opposite boundary state,
emit an event of duration `current - previous` and reset the reference
endpoint to the current iteration. -/
def specScan (nstates : ℕ) (col : ℕ → ℕ) : List ℕ → Option (ℕ × ℕ) → List ℕ
  | [], _ => []
  | it :: rest, ref =>
      if col it = 0 ∨ col it = nstates - 1 then
        match ref with
        | none => specScan nstates col rest (some (it, col it))
        | some p =>
            if col it ≠ p.2 then (it - p.1) :: specScan nstates col rest (some (it, col it))
            else specScan nstates col rest (some p)
      else specScan nstates col rest ref

/-- specPooledEvents pools the per-replica first-passage events of
`specScan` across all replicas, in replica order. -/
def specPooledEvents (s : ℕ → ℕ → ℕ) (niterations nstates : ℕ) : List ℕ :=
  ((List.range nstates).map
    (fun state => specScan nstates (fun it => s it state) (List.range niterations) none)).flatten

/-- blockNij_symm: the per-block transition-count matrix is symmetric. -/
theorem blockNij_symm (s : ℕ → ℕ → ℕ) (blocksize block_index nstates : ℕ) :
    Symm (blockNij s blocksize block_index nstates) := by
  unfold blockNij
  apply foldl_pres Symm
  · intro a b; rfl
  · intro it _ N hN
    apply foldl_pres Symm
    · exact hN
    · intro r _ N' hN'
      exact addTrans_symm N' hN' _ _

/-- relaxNij_symm: the binned-coordinate transition-count matrix is
symmetric. -/
theorem relaxNij_symm (bin : ℕ → ℕ → ℕ) (nstates niterations : ℕ) :
    Symm (relaxNij bin nstates niterations) := by
  unfold relaxNij
  apply foldl_pres Symm
  · intro a b; rfl
  · intro r _ N hN
    apply foldl_pres Symm
    · exact hN
    · intro it _ N' hN'
      exact addTrans_symm N' hN' _ _

/-- C4: for any input trajectory, each accumulated transition-count matrix
is symmetric, `Nij[i,j] = Nij[j,i]`, because every observed adjacent-iteration
transition contributes 0.5 to both `Nij[source,dest]` and `Nij[dest,source]`;
this holds for the full-data replica-mixing accumulation, the per-block
accumulation, and the binned-coordinate accumulation. -/
theorem transition_counts_symmetric (s bin : ℕ → ℕ → ℕ)
    (niterations nstates blocksize block_index i j : ℕ) :
    mixingNij s niterations nstates i j = mixingNij s niterations nstates j i
    ∧ blockNij s blocksize block_index nstates i j = blockNij s blocksize block_index nstates j i
    ∧ relaxNij bin nstates niterations i j = relaxNij bin nstates niterations j i :=
  ⟨mixingNij_symm s niterations nstates i j,
   blockNij_symm s blocksize block_index nstates i j,
   relaxNij_symm bin nstates niterations i j⟩

/-- relaxNij_row_zero: a bin that the binned trajectory never occupies has
an all-zero row in the binned-coordinate transition-count matrix. -/
theorem relaxNij_row_zero (bin : ℕ → ℕ → ℕ) (nstates niterations i : ℕ)
    (h : ∀ ir, ir < nstates → ∀ it, it < niterations → bin ir it ≠ i) :
    ∀ j, relaxNij bin nstates niterations i j = 0 := by
  unfold relaxNij
  apply foldl_pres (fun N : Mat => ∀ j, N i j = 0)
  · intro j; rfl
  · intro ir hir N hN
    apply foldl_pres (fun N : Mat => ∀ j, N i j = 0)
    · exact hN
    · intro it hit N' hN' j
      rw [List.mem_range] at hir hit
      rw [addTrans_row_untouched]
      · exact hN' j
      · exact h ir hir it (by omega)
      · exact h ir hir (it + 1) (by omega)

/-- C2 (amended): in the binned-coordinate estimator `compute_relaxation_time`,
a bin that is never visited has the identity row in the derived transition
matrix (`Tij[i,i] = 1`, `Tij[i,j] = 0` for `j ≠ i`), and no division by zero
occurs because the normalization is guarded by `Ni[ibin] > 0`.  (In the
replica-mixing estimators the normalization is unconditional and a
never-visited state instead yields a NaN row; see the counterexample.) -/
theorem unvisited_bin_row_is_identity (bin : ℕ → ℕ → ℕ)
    (nbins0 nstates niterations i : ℕ)
    (h : ∀ ir, ir < nstates → ∀ it, it < niterations → bin ir it ≠ i) :
    relaxTij bin nbins0 nstates niterations i i = 1
    ∧ ∀ j, j ≠ i → relaxTij bin nbins0 nstates niterations i j = 0 := by
  have hrow := relaxNij_row_zero bin nstates niterations i h
  have hNi : Ni (relaxNij bin nstates niterations) nbins0 i = 0 := by
    unfold Ni
    exact Finset.sum_eq_zero (fun j _ => hrow j)
  constructor
  · simp only [relaxTij]
    rw [hNi, if_neg (lt_irrefl (0 : ℚ))]
    simp
  · intro j hj
    simp only [relaxTij]
    rw [hNi, if_neg (lt_irrefl (0 : ℚ))]
    simp
    exact fun h' => hj h'.symm

/-- Witness for C2 (amended): for the binned trajectory that is constantly
in bin 0 (2 replicas, 2 iterations, 2 bins), the never-visited bin 1 has the
identity row in the binned-coordinate transition matrix. -/
theorem unvisited_bin_row_is_identity_witness :
    relaxTij (fun _ _ => 0) 2 2 2 1 1 = 1
    ∧ ∀ j, j ≠ 1 → relaxTij (fun _ _ => 0) 2 2 2 1 j = 0 :=
  unvisited_bin_row_is_identity (fun _ _ => 0) 2 2 2 1 (by decide)

/-- Counterexample to C2 as stated: in the replica-mixing estimator
`show_mixing_statistics`, the trajectory that keeps both replicas in state 0
for both iterations (`nstates = 2`) never visits state 1; row 1 of the
derived transition matrix is `[0,0]/0.0`, a NaN row (modelled `none`), not
the identity row, because the normalization at line 134 has no zero-count
guard. -/
theorem unvisited_state_row_nan_counterexample :
    mixingTij (fun _ _ => 0) 2 2 1 = none := by
  have h : Ni (mixingNij (fun _ _ => 0) 2 2) 2 1 = 0 := by
    have hr1 : List.range 1 = [0] := rfl
    have hr2 : List.range 2 = [0, 1] := rfl
    norm_num [Ni, mixingNij, addTrans, incr, hr1, hr2, Finset.sum_range_succ]
  simp only [mixingTij]
  rw [if_pos h]

/-- C3 (amended): every row of the replica-mixing transition matrix whose
transition-count row sum is nonzero sums exactly to 1; a row with zero
count sum is instead a NaN row (see the counterexample). -/
theorem visited_row_sums_to_one (s : ℕ → ℕ → ℕ) (niterations nstates i : ℕ)
    (h : Ni (mixingNij s niterations nstates) nstates i ≠ 0) :
    ∃ r, mixingTij s niterations nstates i = some r
      ∧ ∑ j in Finset.range nstates, r j = 1 := by
  refine ⟨fun j => mixingNij s niterations nstates i j
            / Ni (mixingNij s niterations nstates) nstates i, ?_, ?_⟩
  · simp only [mixingTij]
    rw [if_neg h]
  · show (∑ j in Finset.range nstates, mixingNij s niterations nstates i j
        / Ni (mixingNij s niterations nstates) nstates i) = 1
    rw [← Finset.sum_div]
    exact div_self h

/-- Witness for C3: a two-replica, two-iteration trajectory in which each
replica flips state once; row 0 has count sum 1 and the normalized row sums
to 1. -/
theorem visited_row_sums_to_one_witness :
    ∃ r, mixingTij (fun it rep => (it + rep) % 2) 2 2 0 = some r
      ∧ ∑ j in Finset.range 2, r j = 1 :=
  visited_row_sums_to_one (fun it rep => (it + rep) % 2) 2 2 0 (by
    have hr1 : List.range 1 = [0] := rfl
    have hr2 : List.range 2 = [0, 1] := rfl
    norm_num [Ni, mixingNij, addTrans, incr, hr1, hr2, Finset.sum_range_succ])

/-- Counterexample to C3 as stated: for the valid single-iteration
trajectory with both replicas in state 0 (`nstates = 2`), no transition is
observed, every count-row sums to zero, and already row 0 of the derived
transition matrix is a NaN row (modelled `none`) — it does not sum to 1. -/
theorem zero_count_row_sum_counterexample :
    mixingTij (fun _ _ => 0) 1 2 0 = none := by
  have h : Ni (mixingNij (fun _ _ => 0) 1 2) 2 0 = 0 := by
    have hr0 : List.range 0 = ([] : List ℕ) := rfl
    norm_num [Ni, mixingNij, hr0, Finset.sum_range_succ]
  simp only [mixingTij]
  rw [if_pos h]

/-- C1 (amended): when the second descending-sorted eigenvalue `mu[1]` of
the derived transition matrix is at least 1, only the plain mixing
estimator `show_mixing_statistics` reports equilibration as undefined
(`none`) and withholds the timescale; the block-bootstrap variant still
computes `tau = 1/(1-mu[1])` and returns it as the first component of its
result (only the printed message is guarded), and the binned-coordinate
estimator computes and returns `tau` unconditionally, with no
decomposability check at all. -/
theorem spectral_guard_only_in_plain_estimator
    (eig : (ℕ → Option (ℕ → ℚ)) → ℚ) (eig2 : Mat → ℚ)
    (s bin : ℕ → ℕ → ℕ) (niterations nstates nblocks nbins0 : ℕ)
    (h1 : 1 ≤ eig (mixingTij s niterations nstates)) :
    show_mixing_statistics eig s niterations nstates = none
    ∧ (show_mixing_statistics_with_error eig s niterations nstates nblocks).1
        = 1 / (1 - eig (mixingTij s niterations nstates))
    ∧ compute_relaxation_time eig2 bin nbins0 nstates niterations
        = 1 / (1 - eig2 (relaxTij bin nbins0 nstates niterations)) := by
  refine ⟨?_, rfl, rfl⟩
  simp only [show_mixing_statistics]
  rw [if_pos h1]

/-- Witness for C1 (amended): the decomposable all-sticky two-state
trajectory, whose correct second eigenvalue 1 is supplied as the oracle
value. -/
theorem spectral_guard_only_in_plain_estimator_witness :
    show_mixing_statistics (fun _ => 1) (fun _ _ => 0) 2 2 = none
    ∧ (show_mixing_statistics_with_error (fun _ => 1) (fun _ _ => 0) 2 2 1).1
        = 1 / (1 - (fun _ => (1 : ℚ)) (mixingTij (fun _ _ => 0) 2 2))
    ∧ compute_relaxation_time (fun _ => 1) (fun _ _ => 0) 2 2 2
        = 1 / (1 - (fun _ => (1 : ℚ)) (relaxTij (fun _ _ => 0) 2 2 2)) :=
  spectral_guard_only_in_plain_estimator (fun _ => 1) (fun _ => 1)
    (fun _ _ => 0) (fun _ _ => 0) 2 2 1 2 (le_refl 1)

/-- Counterexample to C1 as stated: for the all-sticky trajectory every
derived transition matrix is decomposable (its descending-sorted second
eigenvalue is exactly 1, supplied here as the oracle value); the plain
estimator does report undefined, but `compute_relaxation_time` and the
first (returned) component of `show_mixing_statistics_with_error` still
compute and return `tau = 1/(1-mu[1])` (an infinite float in the source,
the junk value `1/0` over ℚ) instead of withholding the timescale. -/
theorem spectral_guard_missing_counterexample :
    show_mixing_statistics (fun _ => 1) (fun _ _ => 0) 2 2 = none
    ∧ compute_relaxation_time (fun _ => 1) (fun _ _ => 0) 2 2 2 = 1 / (1 - 1)
    ∧ (show_mixing_statistics_with_error (fun _ => 1) (fun _ _ => 0) 2 2 1).1
        = 1 / (1 - 1) := by
  refine ⟨?_, rfl, rfl⟩
  simp only [show_mixing_statistics]
  rw [if_pos (le_refl (1 : ℚ))]

/-- npVar_nonneg: whenever the variance of a list of rationals is defined,
it is nonnegative. -/
theorem npVar_nonneg (xs : List ℚ) (v : ℚ) (h : npVar xs = some v) : 0 ≤ v := by
  unfold npVar at h
  by_cases he : xs.isEmpty
  · rw [if_pos he] at h
    cases h
  · rw [if_neg he] at h
    cases h
    apply div_nonneg
    · apply List.sum_nonneg
      intro x hx
      obtain ⟨y, _, rfl⟩ := List.mem_map.mp hx
      exact sq_nonneg _
    · exact Nat.cast_nonneg _

/-- C5: the block-bootstrap error estimator uses `nblocks` contiguous,
non-overlapping blocks of `floor(niterations/nblocks)` iterations: each
per-block count matrix depends only on the states inside its own window
`[blocksize*b, blocksize*(b+1))` (first conjunct), the whole per-block
estimate list ignores the remainder iterations at and beyond
`blocksize*nblocks` (second conjunct), the function returns a pair whose
first component is the full-data estimate (third conjunct), and the second
component is the standard error `std(tau_i)/sqrt(nblocks)`, whose square
times `nblocks` is the variance of the `nblocks` per-block estimates
(fourth conjunct). -/
theorem block_bootstrap_partition_and_stderr
    (eig : (ℕ → Option (ℕ → ℚ)) → ℚ) (s s' : ℕ → ℕ → ℕ)
    (niterations nstates nblocks : ℕ) (hb : 0 < nblocks)
    (hagree : ∀ it, it < (niterations / nblocks) * nblocks →
      ∀ r, r < nstates → s it r = s' it r) :
    (∀ b, b < nblocks → ∀ s2 : ℕ → ℕ → ℕ,
        (∀ it, (niterations / nblocks) * b ≤ it →
            it < (niterations / nblocks) * (b + 1) →
            ∀ r, r < nstates → s it r = s2 it r) →
        blockNij s (niterations / nblocks) b nstates
          = blockNij s2 (niterations / nblocks) b nstates)
    ∧ blockTaus eig s (niterations / nblocks) nstates nblocks
        = blockTaus eig s' (niterations / nblocks) nstates nblocks
    ∧ (show_mixing_statistics_with_error eig s niterations nstates nblocks).1
        = 1 / (1 - eig (mixingTij s niterations nstates))
    ∧ ∃ v d, npVar (blockTaus eig s (niterations / nblocks) nstates nblocks) = some v
        ∧ (show_mixing_statistics_with_error eig s niterations nstates nblocks).2 = some d
        ∧ d ^ 2 * (nblocks : ℝ) = (v : ℝ) := by
  have hwindow : ∀ b, b < nblocks → ∀ s2 : ℕ → ℕ → ℕ,
      (∀ it, (niterations / nblocks) * b ≤ it →
          it < (niterations / nblocks) * (b + 1) →
          ∀ r, r < nstates → s it r = s2 it r) →
      blockNij s (niterations / nblocks) b nstates
        = blockNij s2 (niterations / nblocks) b nstates := by
    intro b _ s2 hag
    unfold blockNij
    apply foldl_ext
    intro it hit x
    apply foldl_ext
    intro r hr y
    rw [List.mem_range'_1] at hit
    rw [List.mem_range] at hr
    have hmul : (niterations / nblocks) * (b + 1)
        = (niterations / nblocks) * b + (niterations / nblocks) := by ring
    rw [hag it hit.1 (by omega) r hr, hag (it + 1) (by omega) (by omega) r hr]
  have hperblock : ∀ b, b < nblocks →
      blockTij s (niterations / nblocks) b nstates
        = blockTij s' (niterations / nblocks) b nstates := by
    intro b hbb
    unfold blockTij
    rw [hwindow b hbb s' (fun it _ h2 r hr =>
      hagree it (lt_of_lt_of_le h2 (Nat.mul_le_mul_left _ (Nat.succ_le_of_lt hbb))) r hr)]
  have htaus : blockTaus eig s (niterations / nblocks) nstates nblocks
      = blockTaus eig s' (niterations / nblocks) nstates nblocks := by
    unfold blockTaus
    apply List.map_congr_left
    intro b hbmem
    rw [hperblock b (List.mem_range.mp hbmem)]
  refine ⟨hwindow, htaus, rfl, ?_⟩
  have hlen : (blockTaus eig s (niterations / nblocks) nstates nblocks).length = nblocks := by
    unfold blockTaus
    rw [List.length_map, List.length_range]
  have hne : ¬ ((blockTaus eig s (niterations / nblocks) nstates nblocks).isEmpty = true) := by
    rw [List.isEmpty_iff_length_eq_zero, hlen]
    omega
  obtain ⟨v, hv⟩ : ∃ v, npVar (blockTaus eig s (niterations / nblocks) nstates nblocks)
      = some v := by
    unfold npVar
    rw [if_neg hne]
    exact ⟨_, rfl⟩
  have hv0 : (0 : ℝ) ≤ (v : ℝ) := by
    exact_mod_cast npVar_nonneg _ v hv
  have hnb0 : (nblocks : ℝ) ≠ 0 := Nat.cast_ne_zero.mpr hb.ne'
  refine ⟨v, Real.sqrt (v : ℝ) / Real.sqrt (nblocks : ℝ), hv, ?_, ?_⟩
  · simp only [show_mixing_statistics_with_error]
    rw [hv]
    rfl
  · rw [div_pow, Real.sq_sqrt hv0, Real.sq_sqrt (Nat.cast_nonneg _)]
    exact div_mul_cancel₀ _ hnb0

/-- Witness for C5: two blocks of two iterations over a constant two-replica
trajectory, with a constant eigenvalue oracle. -/
theorem block_bootstrap_partition_and_stderr_witness :
    (∀ b, b < 2 → ∀ s2 : ℕ → ℕ → ℕ,
        (∀ it, (4 / 2) * b ≤ it → it < (4 / 2) * (b + 1) →
            ∀ r, r < 2 → (fun _ _ => 0) it r = s2 it r) →
        blockNij (fun _ _ => 0) (4 / 2) b 2 = blockNij s2 (4 / 2) b 2)
    ∧ blockTaus (fun _ => 0) (fun _ _ => 0) (4 / 2) 2 2
        = blockTaus (fun _ => 0) (fun _ _ => 0) (4 / 2) 2 2
    ∧ (show_mixing_statistics_with_error (fun _ => 0) (fun _ _ => 0) 4 2 2).1
        = 1 / (1 - (fun _ => (0 : ℚ)) (mixingTij (fun _ _ => 0) 4 2))
    ∧ ∃ v d, npVar (blockTaus (fun _ => 0) (fun _ _ => 0) (4 / 2) 2 2) = some v
        ∧ (show_mixing_statistics_with_error (fun _ => 0) (fun _ _ => 0) 4 2 2).2 = some d
        ∧ d ^ 2 * ((2 : ℕ) : ℝ) = (v : ℝ) :=
  block_bootstrap_partition_and_stderr (fun _ => 0) (fun _ _ => 0) (fun _ _ => 0)
    4 2 2 (by decide) (fun _ _ _ _ => rfl)

/-- C6: evaluation of `average_end_to_end_time` at a trajectory with zero
end-to-end events (three states, every replica fixed in the interior state
1, so the boundary states 0 and 2 are never visited).  The source computes
`events.mean()` and `events.std()/sqrt(events.size)` of the empty events
array and returns them — both NaN (modelled `none`) — after printing only
the event count; no distinct insufficient-data condition is raised, which
contradicts the claimed behaviour. -/
theorem zero_events_returns_nan_pair :
    average_end_to_end_time (fun _ _ => 1) 4 3 = (none, none) := rfl

/-- e2eStep_not_boundary: an iteration in a non-boundary state leaves the
first-passage accumulator unchanged. -/
theorem e2eStep_not_boundary (col : ℕ → ℕ) (nstates : ℕ) (evs : List ℕ)
    (r : Option ℕ) (it : ℕ) (h : ¬ (col it = 0 ∨ col it = nstates - 1)) :
    e2eStep col nstates (evs, r) it = (evs, r) := by
  unfold e2eStep
  rw [if_neg h]

/-- e2eStep_first: the first boundary visit records the endpoint. -/
theorem e2eStep_first (col : ℕ → ℕ) (nstates : ℕ) (evs : List ℕ) (it : ℕ)
    (h : col it = 0 ∨ col it = nstates - 1) :
    e2eStep col nstates (evs, none) it = (evs, some it) := by
  unfold e2eStep
  rw [if_pos h]

/-- e2eStep_event: a boundary visit in the state opposite to the recorded
endpoint emits an event and resets the endpoint. -/
theorem e2eStep_event (col : ℕ → ℕ) (nstates : ℕ) (evs : List ℕ)
    (last_endpoint it : ℕ) (h : col it = 0 ∨ col it = nstates - 1)
    (hne : col last_endpoint ≠ col it) :
    e2eStep col nstates (evs, some last_endpoint) it
      = (evs ++ [it - last_endpoint], some it) := by
  unfold e2eStep
  rw [if_pos h]
  simp only []
  rw [if_pos hne]

/-- e2eStep_same: a boundary visit in the same state as the recorded
endpoint changes nothing. -/
theorem e2eStep_same (col : ℕ → ℕ) (nstates : ℕ) (evs : List ℕ)
    (last_endpoint it : ℕ) (h : col it = 0 ∨ col it = nstates - 1)
    (heq : col last_endpoint = col it) :
    e2eStep col nstates (evs, some last_endpoint) it = (evs, some last_endpoint) := by
  unfold e2eStep
  rw [if_pos h]
  simp only []
  rw [if_neg (fun hn => hn heq)]

/-- e2e_fold_eq_specScan: the imperative per-replica loop of
`average_end_to_end_time` computes exactly the events of the
specification-worded scan `specScan`, for any starting event list and any
recorded endpoint (the stored endpoint state of the scan is the trajectory
value at the recorded endpoint iteration). -/
theorem e2e_fold_eq_specScan (col : ℕ → ℕ) (nstates : ℕ) :
    ∀ (l : List ℕ) (evs : List ℕ) (r : Option ℕ),
      (l.foldl (e2eStep col nstates) (evs, r)).1
        = evs ++ specScan nstates col l (Option.map (fun i => (i, col i)) r) := by
  intro l
  induction l with
  | nil =>
      intro evs r
      simp [specScan]
  | cons a t ih =>
      intro evs r
      rw [List.foldl_cons]
      by_cases hg : col a = 0 ∨ col a = nstates - 1
      · cases r with
        | none =>
            rw [e2eStep_first col nstates evs a hg, ih]
            simp only [Option.map_none', Option.map_some', specScan]
            rw [if_pos hg]
        | some last_endpoint =>
            by_cases hne : col last_endpoint = col a
            · rw [e2eStep_same col nstates evs last_endpoint a hg hne, ih]
              simp only [Option.map_some', specScan]
              rw [if_pos hg]
              rw [if_neg (fun hn : col a ≠ col last_endpoint => hn hne.symm)]
            · rw [e2eStep_event col nstates evs last_endpoint a hg hne, ih]
              simp only [Option.map_some', specScan]
              rw [if_pos hg]
              rw [if_pos (fun hn : col a = col last_endpoint => hne hn.symm)]
              rw [List.append_assoc]
              rfl
      · rw [e2eStep_not_boundary col nstates evs r a hg, ih]
        cases r with
        | none =>
            simp only [Option.map_none', specScan]
            rw [if_neg hg]
        | some last_endpoint =>
            simp only [Option.map_some', specScan]
            rw [if_neg hg]

/-- e2e_outer_pool: pooling the per-replica scans in replica order equals
the imperative accumulation across replica columns. -/
theorem e2e_outer_pool (s : ℕ → ℕ → ℕ) (niterations nstates : ℕ) :
    ∀ (reps : List ℕ) (evs : List ℕ),
      reps.foldl
        (fun events state =>
          ((List.range niterations).foldl (e2eStep (fun it => s it state) nstates)
            (events, none)).1)
        evs
      = evs ++ (reps.map
          (fun state => specScan nstates (fun it => s it state)
            (List.range niterations) none)).flatten := by
  intro reps
  induction reps with
  | nil => intro evs; simp
  | cons a t ih =>
      intro evs
      rw [List.foldl_cons, ih]
      have hstep := e2e_fold_eq_specScan (fun it => s it a) nstates
        (List.range niterations) evs none
      simp only [Option.map_none'] at hstep
      rw [hstep]
      simp [List.append_assoc]

/-- C7: the first-passage estimator's event accumulation coincides, for
every trajectory, with the specification-worded scan (first boundary visit
recorded as the reference endpoint; an event of duration
`current - previous` emitted and the endpoint reset exactly when the
opposite boundary state is reached), pooled across replicas in order; and
the function returns the sample mean of the pooled events together with
the standard error `std/sqrt(count)` (both NaN, i.e. `none`, when no event
was observed). -/
theorem end_to_end_matches_spec_scan (s : ℕ → ℕ → ℕ) (niterations nstates : ℕ) :
    average_end_to_end_time_events s niterations nstates
      = specPooledEvents s niterations nstates
    ∧ average_end_to_end_time s niterations nstates
      = (npMean ((specPooledEvents s niterations nstates).map (fun e => (e : ℚ))),
         (npVar ((specPooledEvents s niterations nstates).map (fun e => (e : ℚ)))).map
           (fun v => Real.sqrt (v : ℝ)
             / Real.sqrt ((((specPooledEvents s niterations nstates).map
                 (fun e => (e : ℚ))).length : ℝ)))) := by
  have hev : average_end_to_end_time_events s niterations nstates
      = specPooledEvents s niterations nstates := by
    unfold average_end_to_end_time_events specPooledEvents
    rw [e2e_outer_pool s niterations nstates (List.range nstates) []]
    rw [List.nil_append]
  refine ⟨hev, ?_⟩
  unfold average_end_to_end_time
  rw [hev]

/-- checkedAdd_isSome: one checked accumulation step succeeds exactly when
the accumulator has not already failed and both state indices are inside
the `nstates × nstates` count matrix. -/
theorem checkedAdd_isSome (nstates : ℕ) (acc : Option Mat) (i j : ℕ) :
    (checkedAdd nstates acc i j).isSome
      ↔ acc.isSome ∧ (i < nstates ∧ j < nstates) := by
  cases acc with
  | none => simp [checkedAdd]
  | some N =>
      by_cases h : i < nstates ∧ j < nstates
      · simp [checkedAdd, h]
      · simp [checkedAdd, h]

/-- checked_inner_isSome: the inner replica loop of the checked accumulation
succeeds exactly when every replica column it touches holds in-range state
indices at both adjacent iterations. -/
theorem checked_inner_isSome (nstates : ℕ) (s : ℕ → ℕ → ℕ) (it : ℕ) :
    ∀ (l : List ℕ) (acc : Option Mat),
      ((l.foldl (fun a r => checkedAdd nstates a (s it r) (s (it + 1) r)) acc).isSome
        ↔ acc.isSome ∧ ∀ r ∈ l, s it r < nstates ∧ s (it + 1) r < nstates) := by
  intro l
  induction l with
  | nil => intro acc; simp
  | cons a t ih =>
      intro acc
      rw [List.foldl_cons, ih, checkedAdd_isSome]
      simp only [List.forall_mem_cons]
      tauto

/-- checked_outer_isSome: the full checked accumulation succeeds exactly
when every read state index over the scanned iterations is in range. -/
theorem checked_outer_isSome (nstates : ℕ) (s : ℕ → ℕ → ℕ) :
    ∀ (li : List ℕ) (acc : Option Mat),
      ((li.foldl
          (fun a it => (List.range nstates).foldl
            (fun a r => checkedAdd nstates a (s it r) (s (it + 1) r)) a)
          acc).isSome
        ↔ acc.isSome ∧ ∀ it ∈ li, ∀ r, r < nstates →
            s it r < nstates ∧ s (it + 1) r < nstates) := by
  intro li
  induction li with
  | nil => intro acc; simp
  | cons a t ih =>
      intro acc
      rw [List.foldl_cons, ih, checked_inner_isSome]
      simp only [List.forall_mem_cons, List.mem_range]
      tauto

/-- C10: the replica-mixing estimators read `nstates` (used both as the
count-matrix dimension and as the replica count) from the second axis of
the states array and loop replicas over `range(nstates)`; for a trajectory
of at least two iterations, every `Nij[istate,jstate]` access stays inside
the `nstates × nstates` matrix if and only if every state index in the
trajectory is strictly less than `nstates` — a trajectory violating this
makes the accumulation index outside the matrix (an `IndexError`, modelled
as `none`). -/
theorem mixing_counts_in_bounds_iff (s : ℕ → ℕ → ℕ) (niterations nstates : ℕ)
    (h2 : 2 ≤ niterations) :
    (mixingNijChecked s niterations nstates).isSome
      ↔ ∀ it, it < niterations → ∀ r, r < nstates → s it r < nstates := by
  unfold mixingNijChecked
  rw [checked_outer_isSome]
  simp only [List.mem_range, Option.isSome_some, true_and]
  constructor
  · intro hall it hit r hr
    by_cases hlt : it < niterations - 1
    · exact (hall it hlt r hr).1
    · have h1 : it - 1 < niterations - 1 := by omega
      have := (hall (it - 1) h1 r hr).2
      rwa [Nat.sub_add_cancel (by omega)] at this
  · intro hv it hit r hr
    exact ⟨hv it (by omega) r hr, hv (it + 1) (by omega) r hr⟩

/-- Witness for C10: a two-iteration, two-replica trajectory whose state
values alternate between 0 and 1. -/
theorem mixing_counts_in_bounds_iff_witness :
    2 ≤ 2 ∧ ((mixingNijChecked (fun it r => (it + r) % 2) 2 2).isSome
      ↔ ∀ it, it < 2 → ∀ r, r < 2 → (it + r) % 2 < 2) :=
  ⟨by decide, mixing_counts_in_bounds_iff (fun it r => (it + r) % 2) 2 2 (by decide)⟩

/-- C8: every torsion angle in degrees in the range `(-180, 180]` is mapped
by the binning of lines 479-484 to an integer bin index inside
`[0, nbins)` with `nbins = 50`. -/
theorem torsion_bin_index_in_range (phi : ℚ) (h1 : -180 < phi) (h2 : phi ≤ 180) :
    0 ≤ binOf phi ∧ binOf phi < (nbins : ℤ) := by
  have hd : binDelta = 36000 / 4999 := by norm_num [binDelta, nbins]
  have hdpos : (0 : ℚ) < binDelta := by rw [hd]; norm_num
  have hxpos : (0 : ℚ) ≤ (phi + 180) / binDelta :=
    div_nonneg (by linarith) hdpos.le
  have hxlt : (phi + 180) / binDelta < 50 := by
    rw [div_lt_iff₀ hdpos, hd]
    linarith
  unfold binOf ratTrunc
  rw [if_pos hxpos]
  constructor
  · exact Int.le_floor.mpr (by exact_mod_cast hxpos)
  · show ⌊(phi + 180) / binDelta⌋ < ((nbins : ℕ) : ℤ)
    apply Int.floor_lt.mpr
    have : (((nbins : ℕ) : ℤ) : ℚ) = 50 := by norm_num [nbins]
    rw [this]
    exact hxlt

/-- Witness for C8: the angle 90 degrees lies in a bin index inside
`[0, 50)`. -/
theorem torsion_bin_index_in_range_witness :
    0 ≤ binOf 90 ∧ binOf 90 < (nbins : ℤ) :=
  torsion_bin_index_in_range 90 (by norm_num) (by norm_num)

/-- dot_self_nonneg: the dot product of a vector with itself is a sum of
squares. -/
theorem dot_self_nonneg (a : V3) : 0 ≤ dot a a := by
  unfold dot
  nlinarith [mul_self_nonneg a.x, mul_self_nonneg a.y, mul_self_nonneg a.z]

/-- dot_self_eq_zero_iff: only the zero vector has zero self dot product. -/
theorem dot_self_eq_zero_iff (a : V3) : dot a a = 0 ↔ a = ⟨0, 0, 0⟩ := by
  constructor
  · intro h
    unfold dot at h
    have hx0 := mul_self_nonneg a.x
    have hy0 := mul_self_nonneg a.y
    have hz0 := mul_self_nonneg a.z
    have hx : a.x = 0 := mul_self_eq_zero.mp (le_antisymm (by linarith) hx0)
    have hy : a.y = 0 := mul_self_eq_zero.mp (le_antisymm (by linarith) hy0)
    have hz : a.z = 0 := mul_self_eq_zero.mp (le_antisymm (by linarith) hz0)
    cases a
    simp_all
  · intro h
    rw [h]
    unfold dot
    norm_num

/-- dot_normalize_self: normalizing a nonzero vector yields a unit vector. -/
theorem dot_normalize_self (a : V3) (h : a ≠ ⟨0, 0, 0⟩) :
    dot (normalize a) (normalize a) = 1 := by
  have hnz : dot a a ≠ 0 := fun hc => h ((dot_self_eq_zero_iff a).mp hc)
  have hpos : 0 < dot a a := lt_of_le_of_ne (dot_self_nonneg a) (Ne.symm hnz)
  have hsq : Real.sqrt (dot a a) * Real.sqrt (dot a a) = dot a a :=
    Real.mul_self_sqrt (dot_self_nonneg a)
  have hs : Real.sqrt (dot a a) ≠ 0 := by
    intro hc
    rw [hc, mul_zero] at hsq
    exact hnz hsq.symm
  show (a.x / Real.sqrt (dot a a)) * (a.x / Real.sqrt (dot a a))
      + (a.y / Real.sqrt (dot a a)) * (a.y / Real.sqrt (dot a a))
      + (a.z / Real.sqrt (dot a a)) * (a.z / Real.sqrt (dot a a)) = 1
  rw [div_mul_div_comm, div_mul_div_comm, div_mul_div_comm, hsq]
  rw [div_add_div_same, div_add_div_same]
  have : a.x * a.x + a.y * a.y + a.z * a.z = dot a a := rfl
  rw [this]
  exact div_self hnz

/-- lagrange_identity: the three-dimensional Lagrange identity relating the
cross and dot products. -/
theorem lagrange_identity (a b : V3) :
    dot (cross a b) (cross a b) = dot a a * dot b b - dot a b * dot a b := by
  unfold dot cross
  ring

/-- abs_dot_le_one: the Cauchy-Schwarz bound for unit vectors. -/
theorem abs_dot_le_one (u v : V3) (hu : dot u u = 1) (hv : dot v v = 1) :
    |dot u v| ≤ 1 := by
  have hl := lagrange_identity u v
  rw [hu, hv] at hl
  have h0 := dot_self_nonneg (cross u v)
  rw [abs_le]
  constructor
  · nlinarith [mul_self_nonneg (dot u v + 1)]
  · nlinarith [mul_self_nonneg (dot u v - 1)]

/-- cross_eq_zero_of_dot_neg_one: unit vectors with dot product exactly -1
are antiparallel and have zero cross product. -/
theorem cross_eq_zero_of_dot_neg_one (u v : V3) (hu : dot u u = 1)
    (hv : dot v v = 1) (h : dot u v = -1) : cross u v = ⟨0, 0, 0⟩ := by
  have hl := lagrange_identity u v
  rw [hu, hv, h] at hl
  have : dot (cross u v) (cross u v) = 0 := by rw [hl]; ring
  exact (dot_self_eq_zero_iff _).mp this

/-- dot_zero_right: the dot product with the zero vector vanishes. -/
theorem dot_zero_right (a : V3) : dot a ⟨0, 0, 0⟩ = 0 := by
  unfold dot
  norm_num

/-- C9: for four atom positions whose adjacent bond-plane normals are both
nondegenerate (nonzero cross products), `compute_torsion` clamps the dot
product of the two normalized normals to `[-1, 1]` before `arccos` (the
clamp is a no-op here, first conjunct), resolves the sign by negating the
angle exactly when the triple product of the central bond vector `rjk` with
`cross(n1, n2)` is negative, and returns a signed angle in `(-π, π]`
(second and third conjuncts). -/
theorem compute_torsion_range (ri rj rk rl : V3)
    (h1 : cross (vsub ri rj) (vsub rk rj) ≠ ⟨0, 0, 0⟩)
    (h2 : cross (vsub rl rk) (vsub rj rk) ≠ ⟨0, 0, 0⟩) :
    |dot (normalize (cross (vsub ri rj) (vsub rk rj)))
        (normalize (cross (vsub rl rk) (vsub rj rk)))| ≤ 1
    ∧ -Real.pi < compute_torsion ri rj rk rl
    ∧ compute_torsion ri rj rk rl ≤ Real.pi := by
  have hu1 := dot_normalize_self _ h1
  have hu2 := dot_normalize_self _ h2
  have habs := abs_dot_le_one _ _ hu1 hu2
  refine ⟨habs, ?_⟩
  have hval : compute_torsion ri rj rk rl
      = (if dot (vsub rk rj)
            (cross (normalize (cross (vsub ri rj) (vsub rk rj)))
              (normalize (cross (vsub rl rk) (vsub rj rk)))) < 0
         then -Real.arccos
            (dot (normalize (cross (vsub ri rj) (vsub rk rj)))
              (normalize (cross (vsub rl rk) (vsub rj rk))))
         else Real.arccos
            (dot (normalize (cross (vsub ri rj) (vsub rk rj)))
              (normalize (cross (vsub rl rk) (vsub rj rk))))) := by
    simp only [compute_torsion]
    rw [if_neg (not_lt.mpr habs)]
  rw [hval]
  by_cases htr : dot (vsub rk rj)
      (cross (normalize (cross (vsub ri rj) (vsub rk rj)))
        (normalize (cross (vsub rl rk) (vsub rj rk)))) < 0
  · rw [if_pos htr]
    have harc_le := Real.arccos_le_pi
      (dot (normalize (cross (vsub ri rj) (vsub rk rj)))
        (normalize (cross (vsub rl rk) (vsub rj rk))))
    have harc_lt : Real.arccos
        (dot (normalize (cross (vsub ri rj) (vsub rk rj)))
          (normalize (cross (vsub rl rk) (vsub rj rk)))) < Real.pi := by
      rcases harc_le.lt_or_eq with hlt | heq
      · exact hlt
      · exfalso
        have hc : dot (normalize (cross (vsub ri rj) (vsub rk rj)))
            (normalize (cross (vsub rl rk) (vsub rj rk))) ≤ -1 :=
          Real.arccos_eq_pi.mp heq
        have hcge : -1 ≤ dot (normalize (cross (vsub ri rj) (vsub rk rj)))
            (normalize (cross (vsub rl rk) (vsub rj rk))) := (abs_le.mp habs).1
        have hceq := le_antisymm hc hcge
        have hzero := cross_eq_zero_of_dot_neg_one _ _ hu1 hu2 hceq
        rw [hzero, dot_zero_right] at htr
        exact lt_irrefl 0 htr
    constructor
    · linarith
    · have := Real.arccos_nonneg
        (dot (normalize (cross (vsub ri rj) (vsub rk rj)))
          (normalize (cross (vsub rl rk) (vsub rj rk))))
      linarith [Real.pi_pos]
  · rw [if_neg htr]
    constructor
    · linarith [Real.arccos_nonneg
        (dot (normalize (cross (vsub ri rj) (vsub rk rj)))
          (normalize (cross (vsub rl rk) (vsub rj rk)))), Real.pi_pos]
    · exact Real.arccos_le_pi _

/-- Witness for C9: a concrete nondegenerate quadruple of atom positions. -/
theorem compute_torsion_range_witness :
    |dot (normalize (cross (vsub ⟨1, 0, 0⟩ ⟨0, 0, 0⟩) (vsub ⟨0, 1, 0⟩ ⟨0, 0, 0⟩)))
        (normalize (cross (vsub ⟨0, 1, 1⟩ ⟨0, 1, 0⟩) (vsub ⟨0, 0, 0⟩ ⟨0, 1, 0⟩)))| ≤ 1
    ∧ -Real.pi < compute_torsion ⟨1, 0, 0⟩ ⟨0, 0, 0⟩ ⟨0, 1, 0⟩ ⟨0, 1, 1⟩
    ∧ compute_torsion ⟨1, 0, 0⟩ ⟨0, 0, 0⟩ ⟨0, 1, 0⟩ ⟨0, 1, 1⟩ ≤ Real.pi :=
  compute_torsion_range ⟨1, 0, 0⟩ ⟨0, 0, 0⟩ ⟨0, 1, 0⟩ ⟨0, 1, 1⟩
    (by
      intro hc
      have h := congrArg V3.z hc
      norm_num [cross, vsub] at h)
    (by
      intro hc
      have h := congrArg V3.x hc
      norm_num [cross, vsub] at h)

end Gibbs
